import Mathlib

/-
Formal model of the clustering entry points declared in
`sktime/clustering/include/kmeans.h` (scikit-time):

* `initKmeansPlusPlus` — k-means++ style greedy seeding with oversampled
  candidate trials (lines 71-216 of the header);
* the `costFunction` overload without precomputed assignments (lines 58-62),
  which forwards to `assign_chunk_to_centers` and the assignments overload.

Modelling conventions:

* Numeric arrays are `List (List ℚ)` (row-major, N rows of D entries);
  arithmetic is exact rational arithmetic, abstracting the floating-point
  types `float`/`double` of the template instantiations.
* The metric is an arbitrary function returning the (squared) distance of two
  rows, abstracting the `Metric*` argument together with the squared
  distance computation `computeDistances<true>`.
* The random generator (`std::mt19937` seeded from `seed`) is abstracted as
  the values it produces: `firstIx` is the result of the single
  `uniform_int_distribution(0, nFrames-1)` draw, and `u : Nat → ℚ` is the
  stream of `uniform_real_distribution<double>(0, 1)` draws, in the order
  they are consumed.  `nt` is the value `nTrials = (size_t)(2 + log(k))`.
* The progress callback is `Option (Nat → Bool)`: `none` models
  `callback.is_none()`; when present, the n-th invocation notionally returns
  the value of the stream at n.  The C++ code invokes `callback()` and
  discards the returned object, so the stream's values never flow into the
  algorithm; the model records only the number of invocations (`cbCount`).
* `ndim` is the rank `data.ndim()` of the input array; the row list `data`
  is its row-major content viewed as `shape(0)` rows.
-/

namespace KmeansModel

/-- Metric abstraction: squared distance between two rows, as produced for one
matrix cell by `computeDistances<true>(..., metric)`. -/
abbrev Metric := List ℚ → List ℚ → ℚ

/-- Squared Euclidean distance between two rows of equal length (the default
Euclidean metric with `squared = true`). -/
def sqDist : Metric := fun x y => (List.zipWith (fun a b => (a - b) * (a - b)) x y).sum

/-- Helper for `prefixSum`: running partial sums continuing from `acc`. -/
def prefixSumFrom (acc : ℚ) : List ℚ → List ℚ
  | [] => []
  | x :: xs => (acc + x) :: prefixSumFrom (acc + x) xs

/-- Model of `std::partial_sum`: element i of the result is the sum of the
first i+1 input elements (`distancesCumsum` in the source). -/
def prefixSum (l : List ℚ) : List ℚ := prefixSumFrom 0 l

/-- Model of `std::lower_bound(l.begin() + start, l.end(), v)` (with `≤` as
the ordering on an ascending range): index of the first position at or after
`start` holding a value `≥ v`; `l.length` when no such position exists. -/
def lowerBoundFrom (l : List ℚ) (start : Nat) (v : ℚ) : Nat :=
  start + List.findIdx (fun x => decide (v ≤ x)) (l.drop start)

/-- Smallest index of `l` whose entry is `≥ v` (`l.length` when none): the
from-scratch inverse-CDF lookup the resumed binary search is meant to
compute. -/
def leastIdxGE (l : List ℚ) (v : ℚ) : Nat :=
  List.findIdx (fun x => decide (v ≤ x)) l

/-- Candidate-index selection loop of `initKmeansPlusPlus` (source lines
151-166): for each (sorted) trial value, resume `std::lower_bound` on the
prefix-sum array from the previous result position; an exhausted search is
clamped to frame `nFrames - 1`. -/
def candidateIdsAux (cumsum : List ℚ) (nFrames : Nat) : List ℚ → Nat → List Nat
  | [], _ => []
  | v :: vs, pos =>
    let p := lowerBoundFrom cumsum pos v
    (if p ≠ cumsum.length then p else nFrames - 1) :: candidateIdsAux cumsum nFrames vs p

/-- Trial values of one seeding round (source lines 137-148): `nt` draws
`currentPotential * uniformReal(generator)` starting at stream position
`base`, then sorted ascending (`std::sort`; on a linear order any sorting
algorithm yields the same list). -/
def trialValues (u : Nat → ℚ) (base nt : Nat) (pot : ℚ) : List ℚ :=
  List.insertionSort (· ≤ ·) ((List.range nt).map (fun i => pot * u (base + i)))

/-- Updated per-frame potential row for one candidate (source lines 171-177):
entry `frame` is `min(metric distance from the candidate's coordinates to the
frame, current potential of the frame)`. -/
def updatedRow (d : Metric) (data : List (List ℚ)) (dists : List ℚ) (candId : Nat) : List ℚ :=
  List.zipWith (fun row old => min (d (data.getD candId []) row) old) data dists

/-- Helper for `argminIdx`: scan remembering the first position of the
strictly smallest value seen so far (`std::min_element` replaces the current
best only on strict decrease). -/
def argminAux : List ℚ → ℚ → Nat → Nat → Nat
  | [], _, _, best => best
  | x :: xs, bv, i, best =>
    if x < bv then argminAux xs x (i + 1) i else argminAux xs bv (i + 1) best

/-- Model of `std::min_element`: index of the first occurrence of the minimum
(0 on the empty list, where the source would dereference `end()`). -/
def argminIdx : List ℚ → Nat
  | [] => 0
  | x :: xs => argminAux xs x 1 0

/-- State carried across seeding rounds: the indices of the centers picked so
far (the centers array holds the corresponding data rows), the per-frame
potential vector `distances`, its prefix sum `distancesCumsum`, the scalar
`currentPotential`, the number of real draws consumed, and the number of
callback invocations performed. -/
structure SeedState where
  pickedIds : List Nat
  distances : List ℚ
  cumsum : List ℚ
  pot : ℚ
  drawIdx : Nat
  cbCount : Nat
  deriving DecidableEq

/-- Sorted trial values drawn in one round (source lines 146-148). -/
def roundTrials (u : Nat → ℚ) (nt : Nat) (st : SeedState) : List ℚ :=
  trialValues u st.drawIdx nt st.pot

/-- Candidate frame indices of one round (source lines 150-166, the
`candidatesIds` array). -/
def roundIds (data : List (List ℚ)) (u : Nat → ℚ) (nt : Nat) (st : SeedState) : List Nat :=
  candidateIdsAux st.cumsum data.length (roundTrials u nt st) 0

/-- Updated potentials of the round's candidates (source lines 167-192, the
`candidatesPotentials` array: per frame the minimum of the candidate distance
and the current potential, summed over all frames). -/
def roundPots (d : Metric) (data : List (List ℚ)) (u : Nat → ℚ) (nt : Nat)
    (st : SeedState) : List ℚ :=
  (roundIds data u nt st).map (fun cid => (updatedRow d data st.distances cid).sum)

/-- Position of the winning candidate (source lines 194-196,
`std::min_element`). -/
def roundBest (d : Metric) (data : List (List ℚ)) (u : Nat → ℚ) (nt : Nat)
    (st : SeedState) : Nat :=
  argminIdx (roundPots d data u nt st)

/-- Frame index of the winning candidate (source line 197). -/
def roundBestId (d : Metric) (data : List (List ℚ)) (u : Nat → ℚ) (nt : Nat)
    (st : SeedState) : Nat :=
  (roundIds data u nt st).getD (roundBest d data u nt st) 0

/-- One round of the seeding loop (source lines 145-213, one iteration of
`for c = 1..k-1`): draw and sort `nt` trial values, look their positions up
in the prefix-sum array, evaluate every candidate's updated potential, keep
the first candidate attaining the smallest one, and install its row as the
new potential vector, its prefix sum, its total as `currentPotential`, and
its frame as the next center; finally invoke the callback if present. -/
def seedRound (d : Metric) (data : List (List ℚ)) (u : Nat → ℚ) (nt : Nat)
    (cb : Option (Nat → Bool)) (st : SeedState) : SeedState :=
  let bestId := roundBestId d data u nt st
  let newDist := updatedRow d data st.distances bestId
  { pickedIds := st.pickedIds ++ [bestId]
    distances := newDist
    cumsum := prefixSum newDist
    pot := (roundPots d data u nt st).getD (roundBest d data u nt st) 0
    drawIdx := st.drawIdx + nt
    cbCount := st.cbCount + if cb.isSome then 1 else 0 }

/-- State after the first center is chosen (source lines 108-135): center 0
is the data row at `firstIx`; the potential vector holds the metric distances
from that row to every frame; `currentPotential` is the last entry of the
prefix sum; the callback has been invoked once if present. -/
def initState (d : Metric) (data : List (List ℚ)) (firstIx : Nat)
    (cb : Option (Nat → Bool)) : SeedState :=
  let dist := data.map (fun row => d (data.getD firstIx []) row)
  { pickedIds := [firstIx]
    distances := dist
    cumsum := prefixSum dist
    pot := (prefixSum dist).getLastD 0
    drawIdx := 0
    cbCount := if cb.isSome then 1 else 0 }

/-- Runs `m` seeding rounds starting from state `st`. -/
def seedLoop (d : Metric) (data : List (List ℚ)) (u : Nat → ℚ) (nt : Nat)
    (cb : Option (Nat → Bool)) : Nat → SeedState → SeedState
  | 0, st => st
  | m + 1, st => seedLoop d data u nt cb m (seedRound d data u nt cb st)

/-- Complete seeding run after validation: the first center followed by
`k - 1` rounds. -/
def runSeeding (d : Metric) (data : List (List ℚ)) (k : Nat) (firstIx : Nat)
    (u : Nat → ℚ) (nt : Nat) (cb : Option (Nat → Bool)) : SeedState :=
  seedLoop d data u nt cb (k - 1) (initState d data firstIx cb)

/-- Content of the returned centers array: row c of `centers` is the data row
copied by `util::assignCenter` when center c was picked. -/
def seedCenters (data : List (List ℚ)) (st : SeedState) : List (List ℚ) :=
  st.pickedIds.map (fun i => data.getD i [])

/-- Argument validation of `initKmeansPlusPlus` (source lines 74-87), in
source order: first `data.shape(0) < k`, then `data.ndim() != 2`; each
failure raises `std::invalid_argument` with the given message. -/
def validateSeedArgs (nFrames k ndim : Nat) : Option String :=
  if nFrames < k then
    some "not enough data to initialize desired number of centers."
  else if ndim ≠ 2 then
    some "input data does not have two dimensions."
  else none

/-- Top-level model of `initKmeansPlusPlus(data, k, metric, seed, n_threads,
callback)`: validate, then run the seeding.  `nThreads` reaches only
`omp_set_num_threads` (a no-op of the exact-arithmetic model) and is listed
to state thread-count independence.  The returned state carries the picked
center indices; the centers array itself is `seedCenters data`. -/
def initKmeansPlusPlus (ndim : Nat) (data : List (List ℚ)) (k : Nat) (d : Metric)
    (nThreads : Nat) (firstIx : Nat) (u : Nat → ℚ) (nt : Nat)
    (cb : Option (Nat → Bool)) : Except String SeedState :=
  match validateSeedArgs data.length k ndim with
  | some msg => .error msg
  | none => .ok (runSeeding d data k firstIx u nt cb)

/-- Modelled from the spec: `assign_chunk_to_centers` is declared in
`kmeans.h` but defined in `bits/kmeans_bits.h`, which is not part of the
sources at hand; §4.3 of the specification: each data point is mapped to the
index of its nearest center (first index on ties). -/
def assign_chunk_to_centers (data centers : List (List ℚ)) (nThreads : Nat)
    (d : Metric) : List Nat :=
  data.map (fun row => argminIdx (centers.map (fun c => d c row)))

/-- Modelled from the spec: the `costFunction` overload taking precomputed
assignments is declared in `kmeans.h` (lines 53-55) but defined in
`bits/kmeans_bits.h`, which is not part of the sources at hand; §4.5 of the
specification: sum over all points of the squared distance to the assigned
center. -/
def costFunctionAssigned (data centers : List (List ℚ)) (d : Metric)
    (assignments : List Nat) (nThreads : Nat) : ℚ :=
  (List.zipWith (fun row a => d (centers.getD a []) row) data assignments).sum

/-- The `costFunction` overload without assignments (source lines 58-62):
computes the assignments via `assign_chunk_to_centers` and forwards to the
overload with assignments. -/
def costFunction (data centers : List (List ℚ)) (d : Metric) (nThreads : Nat) : ℚ :=
  costFunctionAssigned data centers d
    (assign_chunk_to_centers data centers nThreads d) nThreads

/-- Structural invariant of the seeding state: the potential vector has one
entry per frame, with the prefix-sum vector and `currentPotential` held in
sync with it. -/
def BasicInv (data : List (List ℚ)) (st : SeedState) : Prop :=
  st.distances.length = data.length ∧
  st.cumsum = prefixSum st.distances ∧
  st.pot = st.distances.sum

/-- Weak length invariant: potential vector and prefix-sum vector have one
entry per frame. -/
def LenInv (data : List (List ℚ)) (st : SeedState) : Prop :=
  st.distances.length = data.length ∧ st.cumsum.length = data.length

/-- Full invariant used for the K = N permutation analysis: on top of
`BasicInv`, the picked indices are distinct in-range frames, picked frames
have potential zero, and unpicked frames have strictly positive potential. -/
def GoodState (data : List (List ℚ)) (st : SeedState) : Prop :=
  BasicInv data st ∧
  st.pickedIds.Nodup ∧
  (∀ i ∈ st.pickedIds, i < data.length) ∧
  (∀ j, j < data.length →
    (j ∈ st.pickedIds → st.distances.getD j 0 = 0) ∧
    (j ∉ st.pickedIds → 0 < st.distances.getD j 0))

/-! Auxiliary lemmas about the embedded primitives. -/

theorem prefixSumFrom_length (l : List ℚ) : ∀ acc, (prefixSumFrom acc l).length = l.length := by
  induction l with
  | nil => intro acc; rfl
  | cons x xs ih => intro acc; simp [prefixSumFrom, ih]

theorem prefixSum_length (l : List ℚ) : (prefixSum l).length = l.length :=
  prefixSumFrom_length l 0

theorem prefixSumFrom_getLastD (l : List ℚ) :
    ∀ acc, (prefixSumFrom acc l).getLastD acc = acc + l.sum := by
  induction l with
  | nil => intro acc; simp [prefixSumFrom]
  | cons x xs ih =>
    intro acc
    simp only [prefixSumFrom, List.getLastD_cons, List.sum_cons]
    rw [ih (acc + x)]
    ring

theorem prefixSum_getLastD (l : List ℚ) : (prefixSum l).getLastD 0 = l.sum := by
  have h := prefixSumFrom_getLastD l 0
  simpa [prefixSum] using h

theorem prefixSumFrom_getD (l : List ℚ) :
    ∀ acc i, i < l.length → (prefixSumFrom acc l).getD i 0 = acc + (l.take (i + 1)).sum := by
  induction l with
  | nil => intro acc i h; simp at h
  | cons x xs ih =>
    intro acc i h
    cases i with
    | zero => simp [prefixSumFrom]
    | succ j =>
      have hj : j < xs.length := by simpa using Nat.lt_of_succ_lt_succ h
      simp only [prefixSumFrom, List.getD_cons_succ, List.take_succ_cons, List.sum_cons]
      rw [ih (acc + x) j hj]
      ring

theorem prefixSum_getD (l : List ℚ) (i : Nat) (h : i < l.length) :
    (prefixSum l).getD i 0 = (l.take (i + 1)).sum := by
  have := prefixSumFrom_getD l 0 i h
  simpa [prefixSum] using this

theorem leastIdxGE_le_length (l : List ℚ) (v : ℚ) : leastIdxGE l v ≤ l.length :=
  List.findIdx_le_length _

theorem leastIdxGE_lt_of_before (l : List ℚ) (v : ℚ) :
    ∀ j, j < leastIdxGE l v → l.getD j 0 < v := by
  induction l with
  | nil => intro j h; simp [leastIdxGE, List.findIdx_nil] at h
  | cons x xs ih =>
    intro j h
    by_cases hx : v ≤ x
    · simp [leastIdxGE, List.findIdx_cons, hx] at h
    · have hrec : leastIdxGE (x :: xs) v = leastIdxGE xs v + 1 := by
        simp [leastIdxGE, List.findIdx_cons, hx]
      rw [hrec] at h
      cases j with
      | zero => simpa using lt_of_not_le hx
      | succ j' => exact ih j' (Nat.lt_of_succ_lt_succ h)

theorem leastIdxGE_ge_at (l : List ℚ) (v : ℚ) (h : leastIdxGE l v < l.length) :
    v ≤ l.getD (leastIdxGE l v) 0 := by
  have := @List.findIdx_getElem ℚ (fun x => decide (v ≤ x)) l h
  rw [List.getD_eq_getElem l 0 h]
  exact of_decide_eq_true this

theorem leastIdxGE_mono (l : List ℚ) {v w : ℚ} (hvw : v ≤ w) :
    leastIdxGE l v ≤ leastIdxGE l w := by
  induction l with
  | nil => simp [leastIdxGE, List.findIdx_nil]
  | cons x xs ih =>
    by_cases hw : w ≤ x
    · have hv : v ≤ x := le_trans hvw hw
      simp [leastIdxGE, List.findIdx_cons, hv, hw]
    · by_cases hv : v ≤ x
      · simp only [leastIdxGE, List.findIdx_cons, hv, hw]
        simp
      · simp only [leastIdxGE, List.findIdx_cons, hv, hw]
        simpa using ih

theorem findIdx_drop_eq (p : ℚ → Bool) :
    ∀ (pos : Nat) (l : List ℚ), pos ≤ List.findIdx p l →
      pos + List.findIdx p (l.drop pos) = List.findIdx p l := by
  intro pos
  induction pos with
  | zero => intro l _; simp
  | succ q ih =>
    intro l h
    cases l with
    | nil => simp [List.findIdx_nil] at h
    | cons x xs =>
      by_cases hx : p x
      · simp [List.findIdx_cons, hx] at h
      · have hrec : List.findIdx p (x :: xs) = List.findIdx p xs + 1 := by
          simp [List.findIdx_cons, hx]
        rw [hrec] at h ⊢
        have hq : q ≤ List.findIdx p xs := Nat.le_of_succ_le_succ h
        have := ih xs hq
        simp only [List.drop_succ_cons]
        omega

theorem lowerBoundFrom_eq_leastIdxGE (l : List ℚ) (v : ℚ) (pos : Nat)
    (h : pos ≤ leastIdxGE l v) : lowerBoundFrom l pos v = leastIdxGE l v :=
  findIdx_drop_eq _ pos l h

theorem lowerBoundFrom_le_length (l : List ℚ) (v : ℚ) (pos : Nat) (h : pos ≤ l.length) :
    lowerBoundFrom l pos v ≤ l.length := by
  have h1 : List.findIdx (fun x => decide (v ≤ x)) (l.drop pos) ≤ (l.drop pos).length :=
    List.findIdx_le_length _
  have h2 : (l.drop pos).length = l.length - pos := List.length_drop pos l
  unfold lowerBoundFrom
  omega

theorem argminAux_spec (xs : List ℚ) : ∀ (bv : ℚ) (i best : Nat),
    (argminAux xs bv i best = best ∧ ∀ j, j < xs.length → bv ≤ xs.getD j 0) ∨
    (∃ k, k < xs.length ∧ argminAux xs bv i best = i + k ∧ xs.getD k 0 < bv ∧
      (∀ j, j < xs.length → xs.getD k 0 ≤ xs.getD j 0) ∧
      (∀ j, j < k → xs.getD k 0 < xs.getD j 0)) := by
  induction xs with
  | nil =>
    intro bv i best
    left
    constructor
    · rfl
    · intro j hj; simp at hj
  | cons x xs ih =>
    intro bv i best
    by_cases hx : x < bv
    · have hrec : argminAux (x :: xs) bv i best = argminAux xs x (i + 1) i := by
        simp [argminAux, hx]
      rcases ih x (i + 1) i with ⟨heq, hall⟩ | ⟨k, hk, heq, hlt, hle, hstrict⟩
      · right
        refine ⟨0, by simp, ?_, ?_, ?_, ?_⟩
        · rw [hrec, heq]; omega
        · simpa using hx
        · intro j hj
          cases j with
          | zero => simp
          | succ j' => simpa using hall j' (by simpa using hj)
        · intro j hj; omega
      · right
        refine ⟨k + 1, by simpa using hk, ?_, ?_, ?_, ?_⟩
        · rw [hrec, heq]; omega
        · simp only [List.getD_cons_succ]
          exact lt_trans hlt hx
        · intro j hj
          cases j with
          | zero => simpa using le_of_lt hlt
          | succ j' => simpa using hle j' (by simpa using hj)
        · intro j hj
          cases j with
          | zero => simpa using hlt
          | succ j' => simpa using hstrict j' (by omega)
    · have hrec : argminAux (x :: xs) bv i best = argminAux xs bv (i + 1) best := by
        simp [argminAux, hx]
      rcases ih bv (i + 1) best with ⟨heq, hall⟩ | ⟨k, hk, heq, hlt, hle, hstrict⟩
      · left
        constructor
        · rw [hrec, heq]
        · intro j hj
          cases j with
          | zero => simpa using le_of_not_lt hx
          | succ j' => simpa using hall j' (by simpa using hj)
      · right
        refine ⟨k + 1, by simpa using hk, ?_, ?_, ?_, ?_⟩
        · rw [hrec, heq]; omega
        · simpa using hlt
        · intro j hj
          cases j with
          | zero =>
            simp only [List.getD_cons_succ, List.getD_cons_zero]
            exact le_trans (le_of_lt hlt) (le_of_not_lt hx)
          | succ j' => simpa using hle j' (by simpa using hj)
        · intro j hj
          cases j with
          | zero =>
            simp only [List.getD_cons_succ, List.getD_cons_zero]
            exact lt_of_lt_of_le hlt (le_of_not_lt hx)
          | succ j' => simpa using hstrict j' (by omega)

theorem argminIdx_spec (l : List ℚ) (h : l ≠ []) :
    argminIdx l < l.length ∧
    (∀ j, j < l.length → l.getD (argminIdx l) 0 ≤ l.getD j 0) ∧
    (∀ j, j < argminIdx l → l.getD (argminIdx l) 0 < l.getD j 0) := by
  cases l with
  | nil => exact absurd rfl h
  | cons x xs =>
    have hidx : argminIdx (x :: xs) = argminAux xs x 1 0 := rfl
    rcases argminAux_spec xs x 1 0 with ⟨heq, hall⟩ | ⟨k, hk, heq, hlt, hle, hstrict⟩
    · rw [hidx, heq]
      refine ⟨by simp, ?_, ?_⟩
      · intro j hj
        cases j with
        | zero => simp
        | succ j' => simpa using hall j' (by simpa using hj)
      · intro j hj; omega
    · rw [hidx, heq, Nat.add_comm 1 k]
      refine ⟨by simp; omega, ?_, ?_⟩
      · intro j hj
        cases j with
        | zero => simpa using le_of_lt hlt
        | succ j' => simpa using hle j' (by simpa using hj)
      · intro j hj
        cases j with
        | zero => simpa using hlt
        | succ j' =>
          have : j' < k := by omega
          simpa using hstrict j' this

theorem zipWith_sum_eq_range {α β : Type} (g : α → β → ℚ) (da : α) (db : β) :
    ∀ (a : List α) (b : List β), a.length = b.length →
      (List.zipWith g a b).sum =
        ∑ i ∈ Finset.range a.length, g (a.getD i da) (b.getD i db) := by
  intro a
  induction a with
  | nil => intro b h; simp
  | cons x a ih =>
    intro b h
    cases b with
    | nil => simp at h
    | cons y b =>
      have hlen : a.length = b.length := by simpa using h
      simp only [List.zipWith_cons_cons, List.sum_cons, List.length_cons]
      rw [ih b hlen, Finset.sum_range_succ']
      simp [add_comm]

theorem zipWith_sum_le {α : Type} (g : α → ℚ → ℚ) (hg : ∀ x y, g x y ≤ y) :
    ∀ (a : List α) (b : List ℚ), a.length = b.length →
      (List.zipWith g a b).sum ≤ b.sum := by
  intro a
  induction a with
  | nil =>
    intro b h
    have : b = [] := List.eq_nil_of_length_eq_zero h.symm
    simp [this]
  | cons x a ih =>
    intro b h
    cases b with
    | nil => simp at h
    | cons y b =>
      have hlen : a.length = b.length := by simpa using h
      simp only [List.zipWith_cons_cons, List.sum_cons]
      exact add_le_add (hg x y) (ih b hlen)

theorem candidateIdsAux_length (cumsum : List ℚ) (n : Nat) :
    ∀ (trials : List ℚ) (pos : Nat), (candidateIdsAux cumsum n trials pos).length = trials.length := by
  intro trials
  induction trials with
  | nil => intro pos; rfl
  | cons v vs ih => intro pos; simp [candidateIdsAux, ih]

theorem candidateIdsAux_mem_lt (cumsum : List ℚ) (n : Nat) (hn : 1 ≤ n)
    (hcl : cumsum.length = n) :
    ∀ (trials : List ℚ) (pos : Nat), pos ≤ n →
      ∀ i ∈ candidateIdsAux cumsum n trials pos, i < n := by
  intro trials
  induction trials with
  | nil => intro pos _ i hi; simp [candidateIdsAux] at hi
  | cons v vs ih =>
    intro pos hpos i hi
    have hp : lowerBoundFrom cumsum pos v ≤ n := by
      have := lowerBoundFrom_le_length cumsum v pos (by omega)
      omega
    simp only [candidateIdsAux, List.mem_cons] at hi
    rcases hi with hi | hi
    · subst hi
      by_cases hne : lowerBoundFrom cumsum pos v = cumsum.length
      · rw [if_neg (not_not_intro hne)]
        omega
      · rw [if_pos hne]
        omega
    · exact ih (lowerBoundFrom cumsum pos v) hp i hi

theorem candidateIdsAux_eq_map (cumsum : List ℚ) (n : Nat) :
    ∀ (trials : List ℚ) (pos : Nat), trials.Sorted (· ≤ ·) →
      (∀ v ∈ trials, pos ≤ leastIdxGE cumsum v) →
      candidateIdsAux cumsum n trials pos =
        trials.map (fun v =>
          if leastIdxGE cumsum v ≠ cumsum.length then leastIdxGE cumsum v else n - 1) := by
  intro trials
  induction trials with
  | nil => intro pos _ _; rfl
  | cons v vs ih =>
    intro pos hsorted hpos
    have hv : pos ≤ leastIdxGE cumsum v := hpos v (by simp)
    have hp : lowerBoundFrom cumsum pos v = leastIdxGE cumsum v :=
      lowerBoundFrom_eq_leastIdxGE cumsum v pos hv
    have hsorted' : vs.Sorted (· ≤ ·) := hsorted.of_cons
    have hrel : ∀ w ∈ vs, v ≤ w := fun w hw => List.rel_of_sorted_cons hsorted w hw
    have hpos' : ∀ w ∈ vs, leastIdxGE cumsum v ≤ leastIdxGE cumsum w := fun w hw =>
      leastIdxGE_mono cumsum (hrel w hw)
    simp only [candidateIdsAux, List.map_cons, hp]
    congr 1
    exact ih (leastIdxGE cumsum v) hsorted' (fun w hw => hpos' w hw)

theorem trialValues_sorted (u : Nat → ℚ) (base nt : Nat) (pot : ℚ) :
    (trialValues u base nt pot).Sorted (· ≤ ·) :=
  List.sorted_insertionSort _ _

theorem trialValues_length (u : Nat → ℚ) (base nt : Nat) (pot : ℚ) :
    (trialValues u base nt pot).length = nt := by
  have hperm := List.perm_insertionSort (· ≤ · : ℚ → ℚ → Prop)
    ((List.range nt).map (fun i => pot * u (base + i)))
  have := hperm.length_eq
  simpa [trialValues] using this

theorem trialValues_mem (u : Nat → ℚ) (base nt : Nat) (pot : ℚ) :
    ∀ v ∈ trialValues u base nt pot, ∃ i, i < nt ∧ v = pot * u (base + i) := by
  intro v hv
  have hperm := List.perm_insertionSort (· ≤ · : ℚ → ℚ → Prop)
    ((List.range nt).map (fun i => pot * u (base + i)))
  have hv' : v ∈ (List.range nt).map (fun i => pot * u (base + i)) := hperm.mem_iff.mp hv
  rcases List.mem_map.mp hv' with ⟨i, hi, hvi⟩
  exact ⟨i, List.mem_range.mp hi, hvi.symm⟩

theorem getD_mem {α : Type} (l : List α) (i : Nat) (d : α) (h : i < l.length) :
    l.getD i d ∈ l := by
  rw [List.getD_eq_getElem l d h]
  exact List.getElem_mem h

theorem getD_map_lt {α β : Type} (f : α → β) (l : List α) (i : Nat) (da : α) (db : β)
    (h : i < l.length) : (l.map f).getD i db = f (l.getD i da) := by
  rw [List.getD_eq_getElem _ db (by simpa using h), List.getElem_map,
    List.getD_eq_getElem l da h]

theorem sum_pos_of_getD (l : List ℚ) (hnn : ∀ x ∈ l, 0 ≤ x) :
    ∀ j, j < l.length → 0 < l.getD j 0 → 0 < l.sum := by
  induction l with
  | nil => intro j hj; simp at hj
  | cons x xs ih =>
    intro j hj hpos
    have hxs : ∀ y ∈ xs, 0 ≤ y := fun y hy => hnn y (List.mem_cons_of_mem x hy)
    cases j with
    | zero =>
      simp only [List.getD_cons_zero] at hpos
      have : 0 ≤ xs.sum := List.sum_nonneg hxs
      simp only [List.sum_cons]
      linarith
    | succ j' =>
      have hx : 0 ≤ x := hnn x (by simp)
      have : 0 < xs.sum := ih hxs j' (by simpa using hj) (by simpa using hpos)
      simp only [List.sum_cons]
      linarith

theorem sum_eq_zero_of_getD (l : List ℚ) (h : ∀ j, j < l.length → l.getD j 0 = 0) :
    l.sum = 0 := by
  induction l with
  | nil => rfl
  | cons x xs ih =>
    have hx : x = 0 := by simpa using h 0 (by simp)
    have hxs : xs.sum = 0 := ih (fun j hj => by simpa using h (j + 1) (by simpa using hj))
    simp [hx, hxs]

theorem updatedRow_length (d : Metric) (data : List (List ℚ)) (dists : List ℚ) (cid : Nat)
    (h : dists.length = data.length) : (updatedRow d data dists cid).length = data.length := by
  simp [updatedRow, h]

theorem updatedRow_getD_le (d : Metric) (data : List (List ℚ)) (dists : List ℚ) (cid : Nat)
    (h : dists.length = data.length) :
    ∀ i, (updatedRow d data dists cid).getD i 0 ≤ dists.getD i 0 := by
  intro i
  by_cases hi : i < data.length
  · have hlen : i < (updatedRow d data dists cid).length := by
      rw [updatedRow_length d data dists cid h]; exact hi
    rw [List.getD_eq_getElem _ 0 hlen, List.getD_eq_getElem dists 0 (by omega)]
    simp only [updatedRow, List.getElem_zipWith]
    exact min_le_right _ _
  · rw [List.getD_eq_default _ 0 (by rw [updatedRow_length d data dists cid h]; omega),
      List.getD_eq_default dists 0 (by omega)]

theorem updatedRow_getD_eq (d : Metric) (data : List (List ℚ)) (dists : List ℚ) (cid : Nat)
    (h : dists.length = data.length) (i : Nat) (hi : i < data.length) :
    (updatedRow d data dists cid).getD i 0 =
      min (d (data.getD cid []) (data.getD i [])) (dists.getD i 0) := by
  have hlen : i < (updatedRow d data dists cid).length := by
    rw [updatedRow_length d data dists cid h]; exact hi
  rw [List.getD_eq_getElem _ 0 hlen]
  simp only [updatedRow, List.getElem_zipWith]
  rw [List.getD_eq_getElem data [] hi, List.getD_eq_getElem dists 0 (by omega)]

theorem updatedRow_sum_le (d : Metric) (data : List (List ℚ)) (dists : List ℚ) (cid : Nat)
    (h : dists.length = data.length) : (updatedRow d data dists cid).sum ≤ dists.sum :=
  zipWith_sum_le _ (fun _ y => min_le_right _ y) data dists h.symm

theorem updatedRow_sum_range (d : Metric) (data : List (List ℚ)) (dists : List ℚ) (cid : Nat)
    (h : dists.length = data.length) :
    (updatedRow d data dists cid).sum =
      ∑ i ∈ Finset.range data.length,
        min (d (data.getD cid []) (data.getD i [])) (dists.getD i 0) :=
  zipWith_sum_eq_range _ [] 0 data dists h.symm

theorem basicInv_initState (d : Metric) (data : List (List ℚ)) (firstIx : Nat)
    (cb : Option (Nat → Bool)) : BasicInv data (initState d data firstIx cb) := by
  refine ⟨by simp [initState], rfl, ?_⟩
  show (prefixSum (data.map fun row => d (data.getD firstIx []) row)).getLastD 0 = _
  exact prefixSum_getLastD _

theorem seedRound_pickedIds (d : Metric) (data : List (List ℚ)) (u : Nat → ℚ) (nt : Nat)
    (cb : Option (Nat → Bool)) (st : SeedState) :
    (seedRound d data u nt cb st).pickedIds =
      st.pickedIds ++ [roundBestId d data u nt st] := rfl

theorem seedRound_distances (d : Metric) (data : List (List ℚ)) (u : Nat → ℚ) (nt : Nat)
    (cb : Option (Nat → Bool)) (st : SeedState) :
    (seedRound d data u nt cb st).distances =
      updatedRow d data st.distances (roundBestId d data u nt st) := rfl

theorem roundIds_length (data : List (List ℚ)) (u : Nat → ℚ) (nt : Nat) (st : SeedState) :
    (roundIds data u nt st).length = nt := by
  rw [roundIds, candidateIdsAux_length, roundTrials, trialValues_length]

theorem roundPots_length (d : Metric) (data : List (List ℚ)) (u : Nat → ℚ) (nt : Nat)
    (st : SeedState) : (roundPots d data u nt st).length = nt := by
  rw [roundPots, List.length_map]
  exact roundIds_length data u nt st

theorem roundPots_getD (d : Metric) (data : List (List ℚ)) (u : Nat → ℚ) (nt : Nat)
    (st : SeedState) (t : Nat) (ht : t < nt) :
    (roundPots d data u nt st).getD t 0 =
      (updatedRow d data st.distances ((roundIds data u nt st).getD t 0)).sum := by
  rw [roundPots]
  exact getD_map_lt _ _ t 0 0 (by rw [roundIds_length]; exact ht)

theorem roundBest_lt (d : Metric) (data : List (List ℚ)) (u : Nat → ℚ) (nt : Nat)
    (st : SeedState) (hnt : 1 ≤ nt) : roundBest d data u nt st < nt := by
  have hne : roundPots d data u nt st ≠ [] := by
    intro hc
    have := roundPots_length d data u nt st
    rw [hc] at this
    simp at this
    omega
  have := (argminIdx_spec _ hne).1
  rw [roundPots_length] at this
  exact this

theorem seedRound_bestId_lt (d : Metric) (data : List (List ℚ)) (u : Nat → ℚ) (nt : Nat)
    (st : SeedState) (hn : 1 ≤ data.length) (hcl : st.cumsum.length = data.length) :
    roundBestId d data u nt st < data.length := by
  rw [roundBestId]
  by_cases hb : roundBest d data u nt st < (roundIds data u nt st).length
  · exact candidateIdsAux_mem_lt st.cumsum data.length hn hcl _ 0 (by omega) _
      (getD_mem _ _ 0 hb)
  · rw [List.getD_eq_default _ 0 (by omega)]
    omega

theorem seedRound_pot_eq_sum (d : Metric) (data : List (List ℚ)) (u : Nat → ℚ) (nt : Nat)
    (cb : Option (Nat → Bool)) (st : SeedState) (hnt : 1 ≤ nt) :
    (seedRound d data u nt cb st).pot = (seedRound d data u nt cb st).distances.sum := by
  have hpot : (seedRound d data u nt cb st).pot =
      (roundPots d data u nt st).getD (roundBest d data u nt st) 0 := rfl
  rw [hpot, seedRound_distances,
    roundPots_getD d data u nt st _ (roundBest_lt d data u nt st hnt)]
  rfl

theorem basicInv_seedRound (d : Metric) (data : List (List ℚ)) (u : Nat → ℚ) (nt : Nat)
    (cb : Option (Nat → Bool)) (st : SeedState) (hnt : 1 ≤ nt) (hinv : BasicInv data st) :
    BasicInv data (seedRound d data u nt cb st) := by
  obtain ⟨hlen, hcs, hpot⟩ := hinv
  refine ⟨?_, rfl, seedRound_pot_eq_sum d data u nt cb st hnt⟩
  rw [seedRound_distances]
  exact updatedRow_length d data st.distances _ hlen

theorem seedLoop_succ_outer (d : Metric) (data : List (List ℚ)) (u : Nat → ℚ) (nt : Nat)
    (cb : Option (Nat → Bool)) :
    ∀ (m : Nat) (st : SeedState),
      seedLoop d data u nt cb (m + 1) st =
        seedRound d data u nt cb (seedLoop d data u nt cb m st) := by
  intro m
  induction m with
  | zero => intro st; rfl
  | succ m ih =>
    intro st
    show seedLoop d data u nt cb (m + 1) (seedRound d data u nt cb st) = _
    rw [ih (seedRound d data u nt cb st)]
    rfl

theorem basicInv_seedLoop (d : Metric) (data : List (List ℚ)) (u : Nat → ℚ) (nt : Nat)
    (cb : Option (Nat → Bool)) (hnt : 1 ≤ nt) :
    ∀ (m : Nat) (st : SeedState), BasicInv data st →
      BasicInv data (seedLoop d data u nt cb m st) := by
  intro m
  induction m with
  | zero => intro st h; exact h
  | succ m ih =>
    intro st h
    exact ih _ (basicInv_seedRound d data u nt cb st hnt h)

theorem lenInv_seedRound (d : Metric) (data : List (List ℚ)) (u : Nat → ℚ) (nt : Nat)
    (cb : Option (Nat → Bool)) (st : SeedState) (h : LenInv data st) :
    LenInv data (seedRound d data u nt cb st) := by
  obtain ⟨h1, _⟩ := h
  constructor
  · show (updatedRow d data st.distances _).length = data.length
    exact updatedRow_length d data st.distances _ h1
  · show (prefixSum (updatedRow d data st.distances _)).length = data.length
    rw [prefixSum_length]
    exact updatedRow_length d data st.distances _ h1

theorem seedLoop_pickedIds_length (d : Metric) (data : List (List ℚ)) (u : Nat → ℚ)
    (nt : Nat) (cb : Option (Nat → Bool)) :
    ∀ (m : Nat) (st : SeedState),
      (seedLoop d data u nt cb m st).pickedIds.length = st.pickedIds.length + m := by
  intro m
  induction m with
  | zero => intro st; rfl
  | succ m ih =>
    intro st
    show (seedLoop d data u nt cb m (seedRound d data u nt cb st)).pickedIds.length = _
    rw [ih]
    show (st.pickedIds ++ [_]).length + m = _
    simp
    omega

theorem picked_lt_seedLoop (d : Metric) (data : List (List ℚ)) (u : Nat → ℚ) (nt : Nat)
    (cb : Option (Nat → Bool)) (hn : 1 ≤ data.length) :
    ∀ (m : Nat) (st : SeedState), LenInv data st → (∀ i ∈ st.pickedIds, i < data.length) →
      ∀ i ∈ (seedLoop d data u nt cb m st).pickedIds, i < data.length := by
  intro m
  induction m with
  | zero => intro st _ hpicked; exact hpicked
  | succ m ih =>
    intro st hlen hpicked
    apply ih (seedRound d data u nt cb st) (lenInv_seedRound d data u nt cb st hlen)
    intro i hi
    rw [seedRound_pickedIds] at hi
    rcases List.mem_append.mp hi with hi | hi
    · exact hpicked i hi
    · rcases List.mem_singleton.mp hi with rfl
      exact seedRound_bestId_lt d data u nt st hn hlen.2

theorem seedLoop_cbCount (d : Metric) (data : List (List ℚ)) (u : Nat → ℚ) (nt : Nat)
    (cb : Option (Nat → Bool)) :
    ∀ (m : Nat) (st : SeedState),
      (seedLoop d data u nt cb m st).cbCount =
        st.cbCount + m * (if cb.isSome then 1 else 0) := by
  intro m
  induction m with
  | zero => intro st; simp [seedLoop]
  | succ m ih =>
    intro st
    show (seedLoop d data u nt cb m (seedRound d data u nt cb st)).cbCount = _
    rw [ih]
    show st.cbCount + (if cb.isSome then 1 else 0) + m * (if cb.isSome then 1 else 0) = _
    ring

theorem seedLoop_drawIdx (d : Metric) (data : List (List ℚ)) (u : Nat → ℚ) (nt : Nat)
    (cb : Option (Nat → Bool)) :
    ∀ (m : Nat) (st : SeedState),
      (seedLoop d data u nt cb m st).drawIdx = st.drawIdx + m * nt := by
  intro m
  induction m with
  | zero => intro st; simp [seedLoop]
  | succ m ih =>
    intro st
    show (seedLoop d data u nt cb m (seedRound d data u nt cb st)).drawIdx = _
    rw [ih]
    show st.drawIdx + nt + m * nt = _
    ring

theorem seedRound_stream_agree (d : Metric) (data : List (List ℚ)) (nt : Nat)
    (cb : Option (Nat → Bool)) (st : SeedState) (u v : Nat → ℚ)
    (h : ∀ i, st.drawIdx ≤ i → i < st.drawIdx + nt → u i = v i) :
    seedRound d data u nt cb st = seedRound d data v nt cb st := by
  have htr : trialValues u st.drawIdx nt st.pot = trialValues v st.drawIdx nt st.pot := by
    unfold trialValues
    congr 1
    apply List.map_congr_left
    intro i hi
    rw [h (st.drawIdx + i) (by omega) (by have := List.mem_range.mp hi; omega)]
  unfold seedRound roundBestId roundBest roundPots roundIds roundTrials
  rw [htr]

theorem seedLoop_stream_agree (d : Metric) (data : List (List ℚ)) (nt : Nat)
    (cb : Option (Nat → Bool)) :
    ∀ (m : Nat) (st : SeedState) (u v : Nat → ℚ),
      (∀ i, st.drawIdx ≤ i → i < st.drawIdx + m * nt → u i = v i) →
      seedLoop d data u nt cb m st = seedLoop d data v nt cb m st := by
  intro m
  induction m with
  | zero => intro st u v _; rfl
  | succ m ih =>
    intro st u v h
    simp only [Nat.succ_mul] at h
    show seedLoop d data u nt cb m (seedRound d data u nt cb st) = _
    have hr : seedRound d data u nt cb st = seedRound d data v nt cb st :=
      seedRound_stream_agree d data nt cb st u v
        (fun i h1 h2 => h i h1 (by omega))
    rw [hr]
    apply ih
    intro i h1 h2
    have hdi : (seedRound d data v nt cb st).drawIdx = st.drawIdx + nt := rfl
    rw [hdi] at h1 h2
    exact h i (by omega) (by omega)

theorem seedLoop_cb_ext (d : Metric) (data : List (List ℚ)) (u : Nat → ℚ) (nt : Nat)
    (f g : Nat → Bool) :
    ∀ (m : Nat) (st : SeedState),
      seedLoop d data u nt (some f) m st = seedLoop d data u nt (some g) m st := by
  intro m
  induction m with
  | zero => intro st; rfl
  | succ m ih =>
    intro st
    show seedLoop d data u nt (some f) m (seedRound d data u nt (some f) st) = _
    have hr : seedRound d data u nt (some f) st = seedRound d data u nt (some g) st := rfl
    rw [hr]
    exact ih _

theorem sqDist_self (x : List ℚ) : sqDist x x = 0 := by
  induction x with
  | nil => rfl
  | cons a xs ih =>
    show (List.zipWith (fun a b => (a - b) * (a - b)) (a :: xs) (a :: xs)).sum = 0
    simp only [List.zipWith_cons_cons, List.sum_cons]
    have h1 : (a - a) * (a - a) = 0 := by ring
    have h2 : (List.zipWith (fun a b => (a - b) * (a - b)) xs xs).sum = 0 := ih
    rw [h1, h2, add_zero]

theorem sqDist_nonneg (x : List ℚ) : ∀ y, 0 ≤ sqDist x y := by
  induction x with
  | nil => intro y; simp [sqDist]
  | cons a xs ih =>
    intro y
    cases y with
    | nil => simp [sqDist]
    | cons b ys =>
      show 0 ≤ (List.zipWith _ (a :: xs) (b :: ys)).sum
      simp only [List.zipWith_cons_cons, List.sum_cons]
      have h1 : 0 ≤ (a - b) * (a - b) := mul_self_nonneg _
      have h2 : 0 ≤ sqDist xs ys := ih ys
      have h2' : 0 ≤ (List.zipWith (fun a b => (a - b) * (a - b)) xs ys).sum := h2
      linarith

theorem sqDist_pos (x : List ℚ) : ∀ y, x.length = y.length → x ≠ y → 0 < sqDist x y := by
  induction x with
  | nil =>
    intro y hlen hne
    cases y with
    | nil => exact absurd rfl hne
    | cons b ys => simp at hlen
  | cons a xs ih =>
    intro y hlen hne
    cases y with
    | nil => simp at hlen
    | cons b ys =>
      have hlen' : xs.length = ys.length := by simpa using hlen
      show 0 < (List.zipWith _ (a :: xs) (b :: ys)).sum
      simp only [List.zipWith_cons_cons, List.sum_cons]
      by_cases hab : a = b
      · have hxs : xs ≠ ys := by
          intro hc
          exact hne (by rw [hab, hc])
        have h1 : (a - b) * (a - b) = 0 := by rw [hab]; ring
        have h2 : 0 < sqDist xs ys := ih ys hlen' hxs
        have h2' : 0 < (List.zipWith (fun a b => (a - b) * (a - b)) xs ys).sum := h2
        linarith
      · have h1 : 0 < (a - b) * (a - b) := by
          have : a - b ≠ 0 := sub_ne_zero_of_ne hab
          exact mul_self_pos.mpr this
        have h2 : 0 ≤ sqDist xs ys := sqDist_nonneg xs ys
        have h2' : 0 ≤ (List.zipWith (fun a b => (a - b) * (a - b)) xs ys).sum := h2
        linarith

theorem prefixSum_getD_zero (l : List ℚ) (h : 0 < l.length) :
    (prefixSum l).getD 0 0 = l.getD 0 0 := by
  cases l with
  | nil => simp at h
  | cons x xs => simp [prefixSum, prefixSumFrom]

theorem prefixSum_getD_last (l : List ℚ) (h : 1 ≤ l.length) :
    (prefixSum l).getD (l.length - 1) 0 = l.sum := by
  rw [prefixSum_getD l (l.length - 1) (by omega)]
  have : l.length - 1 + 1 = l.length := by omega
  rw [this, List.take_length]

theorem prefixSum_getD_succ_sub (l : List ℚ) (p : Nat) (hp : 0 < p) (hpl : p < l.length) :
    (prefixSum l).getD p 0 = (prefixSum l).getD (p - 1) 0 + l.getD p 0 := by
  rw [prefixSum_getD l p hpl, prefixSum_getD l (p - 1) (by omega)]
  have h1 : p - 1 + 1 = p := by omega
  rw [h1, List.sum_take_succ l p hpl, List.getD_eq_getElem l 0 hpl]

theorem exists_unpicked (picked : List Nat) (n : Nat) (hnodup : picked.Nodup)
    (hmem : ∀ i ∈ picked, i < n) (hlen : picked.length < n) :
    ∃ j, j < n ∧ j ∉ picked := by
  by_contra hcon
  push_neg at hcon
  have hsub : Finset.range n ⊆ picked.toFinset := by
    intro j hj
    exact List.mem_toFinset.mpr (hcon j (Finset.mem_range.mp hj))
  have hcard := Finset.card_le_card hsub
  rw [Finset.card_range, List.toFinset_card_of_nodup hnodup] at hcard
  omega

theorem map_getD_range (l : List (List ℚ)) :
    (List.range l.length).map (fun i => l.getD i []) = l := by
  apply List.ext_getElem (by simp)
  intro i h1 h2
  simp only [List.getElem_map, List.getElem_range]
  exact (List.getD_eq_getElem l [] h2).symm ▸ rfl

theorem toFinset_range_eq (n : Nat) : (List.range n).toFinset = Finset.range n := by
  ext j
  simp [List.mem_toFinset, List.mem_range, Finset.mem_range]

/-- Every candidate id of a round is an in-range frame with strictly positive
current potential, provided every real draw lies strictly inside (0,1) and
the state is in sync with a strictly positive total potential. -/
theorem roundIds_pos_dist (data : List (List ℚ)) (u : Nat → ℚ) (nt : Nat)
    (st : SeedState) (hlen : st.distances.length = data.length)
    (hcs : st.cumsum = prefixSum st.distances) (hpot : st.pot = st.distances.sum)
    (hpotpos : 0 < st.pot) (hu : ∀ i, 0 < u i ∧ u i < 1) :
    ∀ cid ∈ roundIds data u nt st,
      cid < data.length ∧ 0 < st.distances.getD cid 0 := by
  have hn : 1 ≤ data.length := by
    by_contra hc
    have h0 : data.length = 0 := by omega
    have : st.distances = [] := List.eq_nil_of_length_eq_zero (by omega)
    rw [hpot, this] at hpotpos
    simp at hpotpos
  have hcl : st.cumsum.length = data.length := by
    rw [hcs, prefixSum_length, hlen]
  have htb : ∀ v ∈ roundTrials u nt st, 0 < v ∧ v < st.pot := by
    intro v hv
    rcases trialValues_mem u st.drawIdx nt st.pot v hv with ⟨i, _, rfl⟩
    constructor
    · exact mul_pos hpotpos (hu (st.drawIdx + i)).1
    · calc st.pot * u (st.drawIdx + i) < st.pot * 1 :=
            mul_lt_mul_of_pos_left (hu (st.drawIdx + i)).2 hpotpos
        _ = st.pot := mul_one st.pot
  have hmap : roundIds data u nt st =
      (roundTrials u nt st).map
        (fun v => if leastIdxGE st.cumsum v ≠ st.cumsum.length then leastIdxGE st.cumsum v
                  else data.length - 1) :=
    candidateIdsAux_eq_map st.cumsum data.length (roundTrials u nt st) 0
      (trialValues_sorted u st.drawIdx nt st.pot) (fun v _ => Nat.zero_le _)
  intro cid hcid
  rw [hmap] at hcid
  rcases List.mem_map.mp hcid with ⟨v, hv, hfv⟩
  obtain ⟨hvpos, hvlt⟩ := htb v hv
  have hlast : st.cumsum.getD (data.length - 1) 0 = st.pot := by
    rw [hcs, hpot, ← hlen]
    exact prefixSum_getD_last st.distances (by omega)
  have hplt : leastIdxGE st.cumsum v < st.cumsum.length := by
    apply List.findIdx_lt_length_of_exists
    refine ⟨st.cumsum.getD (data.length - 1) 0, getD_mem st.cumsum (data.length - 1) 0 (by omega), ?_⟩
    rw [hlast]
    exact decide_eq_true (le_of_lt hvlt)
  set p := leastIdxGE st.cumsum v with hpdef
  have hfv' : cid = p := by
    rw [← hfv, if_pos (by omega)]
  subst hfv'
  have hpn : p < data.length := by omega
  refine ⟨hpn, ?_⟩
  have hge : v ≤ st.cumsum.getD p 0 := leastIdxGE_ge_at st.cumsum v hplt
  by_cases hp0 : p = 0
  · have h0 : st.cumsum.getD 0 0 = st.distances.getD 0 0 := by
      rw [hcs]
      exact prefixSum_getD_zero st.distances (by omega)
    rw [hp0] at hge ⊢
    rw [h0] at hge
    linarith
  · have hlt : st.cumsum.getD (p - 1) 0 < v :=
      leastIdxGE_lt_of_before st.cumsum v (p - 1) (by omega)
    have hsub : st.cumsum.getD p 0 = st.cumsum.getD (p - 1) 0 + st.distances.getD p 0 := by
      rw [hcs]
      exact prefixSum_getD_succ_sub st.distances p (by omega) (by omega)
    rw [hsub] at hge
    linarith

theorem goodState_initState (data : List (List ℚ)) (dim firstIx : Nat)
    (cb : Option (Nat → Bool)) (hfi : firstIx < data.length) (hnodupD : data.Nodup)
    (hrows : ∀ r ∈ data, r.length = dim) :
    GoodState data (initState sqDist data firstIx cb) := by
  have hpicked : (initState sqDist data firstIx cb).pickedIds = [firstIx] := rfl
  have hd : (initState sqDist data firstIx cb).distances =
      data.map (fun row => sqDist (data.getD firstIx []) row) := rfl
  refine ⟨basicInv_initState sqDist data firstIx cb, ?_, ?_, ?_⟩
  · rw [hpicked]
    exact List.nodup_singleton _
  · intro i hi
    rw [hpicked] at hi
    rcases List.mem_singleton.mp hi with rfl
    exact hfi
  · intro j hjn
    have hgd : (initState sqDist data firstIx cb).distances.getD j 0 =
        sqDist (data.getD firstIx []) (data.getD j []) := by
      rw [hd]
      exact getD_map_lt _ data j [] 0 hjn
    rw [hpicked, hgd]
    constructor
    · intro hjin
      rcases List.mem_singleton.mp hjin with rfl
      exact sqDist_self _
    · intro hjnotin
      have hne : j ≠ firstIx := fun hc => hjnotin (hc ▸ List.mem_singleton_self j)
      have hrowne : data.getD firstIx [] ≠ data.getD j [] := by
        rw [List.getD_eq_getElem data [] hfi, List.getD_eq_getElem data [] hjn]
        intro hc
        exact hne (hnodupD.getElem_inj_iff.mp hc).symm
      have hl1 : (data.getD firstIx []).length = dim :=
        hrows _ (getD_mem data firstIx [] hfi)
      have hl2 : (data.getD j []).length = dim := hrows _ (getD_mem data j [] hjn)
      exact sqDist_pos _ _ (by omega) hrowne

theorem goodState_seedRound (data : List (List ℚ)) (dim : Nat) (u : Nat → ℚ) (nt : Nat)
    (cb : Option (Nat → Bool)) (st : SeedState) (hnt : 1 ≤ nt)
    (hnodupD : data.Nodup) (hrows : ∀ r ∈ data, r.length = dim)
    (hu : ∀ i, 0 < u i ∧ u i < 1)
    (hg : GoodState data st) (hroom : st.pickedIds.length < data.length) :
    GoodState data (seedRound sqDist data u nt cb st) := by
  obtain ⟨⟨hlen, hcs, hpot⟩, hnodup, hmem, hzero⟩ := hg
  obtain ⟨j0, hj0n, hj0notin⟩ :=
    exists_unpicked st.pickedIds data.length hnodup hmem hroom
  have hdnn : ∀ x ∈ st.distances, 0 ≤ x := by
    intro x hx
    rcases List.mem_iff_getElem.mp hx with ⟨j, hjl, rfl⟩
    have hjn : j < data.length := by omega
    have hgd : st.distances.getD j 0 = st.distances[j] := List.getD_eq_getElem _ 0 hjl
    by_cases hj : j ∈ st.pickedIds
    · rw [← hgd, (hzero j hjn).1 hj]
    · rw [← hgd]
      exact le_of_lt ((hzero j hjn).2 hj)
  have hpotpos : 0 < st.pot := by
    rw [hpot]
    exact sum_pos_of_getD st.distances hdnn j0 (by omega) ((hzero j0 hj0n).2 hj0notin)
  have hfresh := roundIds_pos_dist data u nt st hlen hcs hpot hpotpos hu
  have hbestmem : roundBestId sqDist data u nt st ∈ roundIds data u nt st := by
    rw [roundBestId]
    exact getD_mem _ _ 0 (by rw [roundIds_length]; exact roundBest_lt sqDist data u nt st hnt)
  obtain ⟨hbn, hbpos⟩ := hfresh _ hbestmem
  have hbnotin : roundBestId sqDist data u nt st ∉ st.pickedIds := by
    intro hin
    rw [(hzero _ hbn).1 hin] at hbpos
    exact lt_irrefl 0 hbpos
  refine ⟨basicInv_seedRound sqDist data u nt cb st hnt ⟨hlen, hcs, hpot⟩, ?_, ?_, ?_⟩
  · rw [seedRound_pickedIds, List.nodup_append]
    refine ⟨hnodup, List.nodup_singleton _, ?_⟩
    intro a ha hb
    rcases List.mem_singleton.mp hb with rfl
    exact hbnotin ha
  · intro i hi
    rw [seedRound_pickedIds] at hi
    rcases List.mem_append.mp hi with hi | hi
    · exact hmem i hi
    · rcases List.mem_singleton.mp hi with rfl
      exact hbn
  · intro j hjn
    have hgd : (seedRound sqDist data u nt cb st).distances.getD j 0 =
        min (sqDist (data.getD (roundBestId sqDist data u nt st) []) (data.getD j []))
          (st.distances.getD j 0) := by
      rw [seedRound_distances]
      exact updatedRow_getD_eq sqDist data st.distances _ hlen j hjn
    rw [seedRound_pickedIds, hgd]
    constructor
    · intro hjin
      rcases List.mem_append.mp hjin with hjold | hjnew
      · rw [(hzero j hjn).1 hjold]
        exact min_eq_right (sqDist_nonneg _ _)
      · rcases List.mem_singleton.mp hjnew with rfl
        rw [sqDist_self]
        exact min_eq_left (le_of_lt hbpos)
    · intro hjnotin
      have hjold : j ∉ st.pickedIds :=
        fun hc => hjnotin (List.mem_append.mpr (Or.inl hc))
      have hjne : j ≠ roundBestId sqDist data u nt st :=
        fun hc => hjnotin (List.mem_append.mpr (Or.inr (hc ▸ List.mem_singleton_self j)))
      have hold : 0 < st.distances.getD j 0 := (hzero j hjn).2 hjold
      have hrowne : data.getD (roundBestId sqDist data u nt st) [] ≠ data.getD j [] := by
        rw [List.getD_eq_getElem data [] hbn, List.getD_eq_getElem data [] hjn]
        intro hc
        exact hjne (hnodupD.getElem_inj_iff.mp hc).symm
      have hl1 : (data.getD (roundBestId sqDist data u nt st) []).length = dim :=
        hrows _ (getD_mem data _ [] hbn)
      have hl2 : (data.getD j []).length = dim := hrows _ (getD_mem data j [] hjn)
      exact lt_min (sqDist_pos _ _ (by omega) hrowne) hold

theorem goodState_seedLoop (data : List (List ℚ)) (dim : Nat) (u : Nat → ℚ) (nt : Nat)
    (cb : Option (Nat → Bool)) (hnt : 1 ≤ nt) (hnodupD : data.Nodup)
    (hrows : ∀ r ∈ data, r.length = dim) (hu : ∀ i, 0 < u i ∧ u i < 1) :
    ∀ (m : Nat) (st : SeedState), GoodState data st →
      st.pickedIds.length + m ≤ data.length →
      GoodState data (seedLoop sqDist data u nt cb m st) := by
  intro m
  induction m with
  | zero => intro st hg _; exact hg
  | succ m ih =>
    intro st hg hroom
    show GoodState data (seedLoop sqDist data u nt cb m (seedRound sqDist data u nt cb st))
    have hnewlen : (seedRound sqDist data u nt cb st).pickedIds.length =
        st.pickedIds.length + 1 := by
      rw [seedRound_pickedIds, List.length_append, List.length_singleton]
    apply ih
    · exact goodState_seedRound data dim u nt cb st hnt hnodupD hrows hu hg (by omega)
    · omega

/-! Claim theorems. -/

/-- C9: for every data set, center set, metric and thread count, the
`costFunction` overload called without assignments returns exactly the same
scalar as the overload called with assignments when those assignments are the
ones produced by `assign_chunk_to_centers` on the same inputs. -/
theorem C9_cost_overload_forwards (data centers : List (List ℚ)) (d : Metric)
    (nThreads : Nat) :
    costFunction data centers d nThreads =
      costFunctionAssigned data centers d
        (assign_chunk_to_centers data centers nThreads d) nThreads := rfl

/-- C6 (code evaluated at the failing input): with N = 1 frame, K = 0 and a
2-dimensional input array, the argument validation of `initKmeansPlusPlus`
reports no error — the code checks only `shape(0) < k` and `ndim != 2`, so the
precondition K ≥ 1 is never enforced and K = 0 does not raise
`std::invalid_argument`. -/
theorem C6_k_zero_passes_validation : validateSeedArgs 1 0 2 = none := rfl

/-- C10: a trial value of exactly 0 makes the inverse-CDF lookup (both the
resumed `std::lower_bound` and the from-scratch smallest-index search) return
index 0 whenever the first prefix-sum entry is ≥ 0, regardless of point 0's
remaining potential; consequently, on the data set [[0],[1]] of two distinct
points with both real draws equal to 0 and first index 0, `seed()` re-selects
the already-chosen center and returns two identical rows. -/
theorem C10_zero_trial_duplicates_center :
    (∀ (c : ℚ) (rest : List ℚ), 0 ≤ c →
        lowerBoundFrom (c :: rest) 0 0 = 0 ∧ leastIdxGE (c :: rest) 0 = 0) ∧
    seedCenters [[0], [1]] (runSeeding sqDist [[0], [1]] 2 0 (fun _ => 0) 2 none) =
      [[0], [0]] ∧
    ¬ (seedCenters [[0], [1]]
        (runSeeding sqDist [[0], [1]] 2 0 (fun _ => 0) 2 none)).Nodup := by
  have hcenters : seedCenters [[0], [1]]
      (runSeeding sqDist [[0], [1]] 2 0 (fun _ => 0) 2 none) = [[0], [0]] := by
    norm_num [runSeeding, seedLoop, seedRound, roundBestId, roundBest, roundPots,
      roundIds, roundTrials, initState, trialValues, candidateIdsAux,
      lowerBoundFrom, updatedRow, argminIdx, argminAux, prefixSum, prefixSumFrom, sqDist,
      leastIdxGE, seedCenters, List.insertionSort, List.orderedInsert, List.range_succ,
      List.findIdx, List.findIdx.go, min_def]
  refine ⟨?_, hcenters, ?_⟩
  · intro c rest hc
    constructor
    · simp [lowerBoundFrom, List.findIdx_cons, hc]
    · simp [leastIdxGE, List.findIdx_cons, hc]
  · rw [hcenters]
    simp

/-- Witness for C10: the universal part applied at a concrete prefix-sum array
with a strictly positive first entry. -/
theorem C10_witness :
    (0 : ℚ) ≤ 5 ∧ lowerBoundFrom [5, 7] 0 0 = 0 ∧ leastIdxGE [5, 7] 0 = 0 :=
  ⟨by norm_num,
   (C10_zero_trial_duplicates_center.1 5 [7] (by norm_num)).1,
   (C10_zero_trial_duplicates_center.1 5 [7] (by norm_num)).2⟩

/-- C7 (amended): during seeding the callback, when present, is invoked
exactly once after each chosen center — K invocations for a complete run —
but its returned value is ignored: runs with callbacks returning different
values (in particular one that always requests cancellation) produce
identical states, and seeding never stops early. -/
theorem C7_amended_callback_count (d : Metric) (data : List (List ℚ))
    (k firstIx nt : Nat) (u : Nat → ℚ) (hk : 1 ≤ k) (f g : Nat → Bool) :
    runSeeding d data k firstIx u nt (some f) =
      runSeeding d data k firstIx u nt (some g) ∧
    (runSeeding d data k firstIx u nt (some f)).cbCount = k := by
  constructor
  · unfold runSeeding
    have hinit : initState d data firstIx (some f) = initState d data firstIx (some g) := rfl
    rw [hinit]
    exact seedLoop_cb_ext d data u nt f g (k - 1) _
  · unfold runSeeding
    rw [seedLoop_cbCount]
    have h1 : (initState d data firstIx (some f)).cbCount = 1 := rfl
    rw [h1]
    simp only [Option.isSome_some, if_true]
    omega

/-- Witness for C7's amended theorem at a concrete run. -/
theorem C7_amended_witness :
    1 ≤ 2 ∧
    (runSeeding sqDist [[0], [1]] 2 0 (fun _ => 1/2) 2
      (some (fun _ => true))).cbCount = 2 :=
  ⟨by norm_num,
   (C7_amended_callback_count sqDist [[0], [1]] 2 0 2 (fun _ => 1/2) (by norm_num)
     (fun _ => true) (fun _ => false)).2⟩

/-- C7 (counterexample to the claim as stated): with a callback that requests
cancellation at every checkpoint, a K = 3 run still performs all 3 callback
invocations and still picks all 3 centers — seeding does not stop at the
checkpoint where cancellation was requested. -/
theorem C7_counterexample_cancel_ignored :
    (runSeeding sqDist [[0], [1], [2]] 3 0 (fun _ => 1/2) 2
      (some (fun _ => true))).cbCount = 3 ∧
    ¬ ((runSeeding sqDist [[0], [1], [2]] 3 0 (fun _ => 1/2) 2
      (some (fun _ => true))).pickedIds.length ≤ 1) := by
  refine ⟨?_, ?_⟩ <;>
    norm_num [runSeeding, seedLoop, seedRound, roundBestId, roundBest, roundPots,
      roundIds, roundTrials, initState, trialValues, candidateIdsAux,
      lowerBoundFrom, updatedRow, argminIdx, argminAux, prefixSum, prefixSumFrom, sqDist,
      leastIdxGE, List.insertionSort, List.orderedInsert, List.range_succ,
      List.findIdx, List.findIdx.go, min_def]

/-- C5: for identical data, K, metric and identical abstracted random draws
(first index and real-draw stream), two runs of `seed()` produce identical
results under different thread counts; moreover the seeding consumes exactly
(K-1)·nTrials real draws, a count depending only on K (given nTrials), and
the output depends on the stream only through those first (K-1)·nTrials
draws. -/
theorem C5_thread_count_independent (ndim : Nat) (data : List (List ℚ)) (k : Nat)
    (d : Metric) (firstIx nt t1 t2 : Nat) (cb : Option (Nat → Bool)) (u v : Nat → ℚ)
    (hagree : ∀ i, i < (k - 1) * nt → u i = v i) :
    initKmeansPlusPlus ndim data k d t1 firstIx u nt cb =
      initKmeansPlusPlus ndim data k d t2 firstIx v nt cb ∧
    (runSeeding d data k firstIx u nt cb).drawIdx = (k - 1) * nt := by
  constructor
  · unfold initKmeansPlusPlus
    cases h : validateSeedArgs data.length k ndim with
    | some msg => rfl
    | none =>
      have hrun : runSeeding d data k firstIx u nt cb =
          runSeeding d data k firstIx v nt cb := by
        unfold runSeeding
        apply seedLoop_stream_agree
        intro i h1 h2
        have h0 : (initState d data firstIx cb).drawIdx = 0 := rfl
        rw [h0] at h2
        exact hagree i (by omega)
      rw [hrun]
  · unfold runSeeding
    rw [seedLoop_drawIdx]
    have h0 : (initState d data firstIx cb).drawIdx = 0 := rfl
    omega

/-- Witness for C5 at concrete inputs (two different thread counts, equal
draw streams). -/
theorem C5_witness :
    initKmeansPlusPlus 2 [[0], [1]] 2 sqDist 1 0 (fun _ => 1/2) 2 none =
      initKmeansPlusPlus 2 [[0], [1]] 2 sqDist 7 0 (fun _ => 1/2) 2 none :=
  (C5_thread_count_independent 2 [[0], [1]] 2 sqDist 0 2 1 7 none
    (fun _ => 1/2) (fun _ => 1/2) (fun _ _ => rfl)).1

/-- C4: during seeding, the total potential is non-increasing — after round
c+1 it is at most the total after round c — and every per-point potential
entry is also non-increasing across rounds. -/
theorem C4_potential_nonincreasing (d : Metric) (data : List (List ℚ)) (u : Nat → ℚ)
    (nt firstIx : Nat) (cb : Option (Nat → Bool)) (hnt : 1 ≤ nt) (c : Nat) :
    (seedLoop d data u nt cb (c + 1) (initState d data firstIx cb)).pot ≤
      (seedLoop d data u nt cb c (initState d data firstIx cb)).pot ∧
    ∀ i, (seedLoop d data u nt cb (c + 1) (initState d data firstIx cb)).distances.getD i 0 ≤
      (seedLoop d data u nt cb c (initState d data firstIx cb)).distances.getD i 0 := by
  rw [seedLoop_succ_outer]
  set st := seedLoop d data u nt cb c (initState d data firstIx cb) with hst
  have hinv : BasicInv data st :=
    basicInv_seedLoop d data u nt cb hnt c _ (basicInv_initState d data firstIx cb)
  obtain ⟨hlen, hcs, hpot⟩ := hinv
  constructor
  · rw [seedRound_pot_eq_sum d data u nt cb st hnt, seedRound_distances, hpot]
    exact updatedRow_sum_le d data st.distances _ hlen
  · intro i
    rw [seedRound_distances]
    exact updatedRow_getD_le d data st.distances _ hlen i

/-- Witness for C4 at a concrete run and round. -/
theorem C4_witness :
    1 ≤ 2 ∧
    (seedLoop sqDist [[0], [1]] (fun _ => 1/2) 2 none 1
        (initState sqDist [[0], [1]] 0 none)).pot ≤
      (seedLoop sqDist [[0], [1]] (fun _ => 1/2) 2 none 0
        (initState sqDist [[0], [1]] 0 none)).pot :=
  ⟨by norm_num,
   (C4_potential_nonincreasing sqDist [[0], [1]] (fun _ => 1/2) 2 0 none
     (by norm_num) 0).1⟩

/-- C1: for every 2-dimensional data set with N rows of D entries, every K
with N ≥ K ≥ 1, any metric, any first-index draw in range and any draw
stream, `seed()` succeeds and returns a center array of exactly K rows, each
identical to some row of the input data (hence with D columns). -/
theorem C1_centers_are_data_rows (data : List (List ℚ)) (dim k nThreads firstIx nt : Nat)
    (d : Metric) (u : Nat → ℚ) (cb : Option (Nat → Bool))
    (hk : 1 ≤ k) (hkn : k ≤ data.length) (hfi : firstIx < data.length)
    (hD : ∀ r ∈ data, r.length = dim) :
    ∃ st, initKmeansPlusPlus 2 data k d nThreads firstIx u nt cb = Except.ok st ∧
      (seedCenters data st).length = k ∧
      ∀ row ∈ seedCenters data st, row ∈ data ∧ row.length = dim := by
  have hval : validateSeedArgs data.length k 2 = none := by
    unfold validateSeedArgs
    rw [if_neg (by omega)]
    simp
  refine ⟨runSeeding d data k firstIx u nt cb, ?_, ?_, ?_⟩
  · unfold initKmeansPlusPlus
    rw [hval]
  · unfold seedCenters runSeeding
    rw [List.length_map, seedLoop_pickedIds_length]
    have h1 : (initState d data firstIx cb).pickedIds.length = 1 := rfl
    omega
  · intro row hrow
    unfold seedCenters at hrow
    rcases List.mem_map.mp hrow with ⟨i, hi, hrow'⟩
    have hinitlen : LenInv data (initState d data firstIx cb) := by
      constructor
      · simp [initState]
      · show (prefixSum _).length = data.length
        rw [prefixSum_length]
        simp [initState]
    have hibound : i < data.length := by
      refine picked_lt_seedLoop d data u nt cb (by omega) (k - 1)
        (initState d data firstIx cb) hinitlen ?_ i hi
      intro j hj
      have : j = firstIx := by simpa [initState] using hj
      omega
    rw [← hrow']
    have hmem : data.getD i [] ∈ data := getD_mem data i [] hibound
    exact ⟨hmem, hD _ hmem⟩

/-- C2: in a seeding round (arbitrary current potential, prefix-sum vector of
length N and stream position), the candidate-generation step draws exactly
⌊2 + ln K⌋ trial values, each in [0, total potential), sorts them ascending,
and the resumed binary search maps each trial value to the smallest
prefix-sum index whose cumulative value is ≥ that value, clamped to N-1 when
no such index exists. -/
theorem C2_candidate_generation (k nt : Nat) (hk : 1 ≤ k)
    (hnt : nt = ⌊(2 : ℝ) + Real.log k⌋₊)
    (cumsum : List ℚ) (n base : Nat) (u : Nat → ℚ) (pot : ℚ)
    (hcl : cumsum.length = n) (hpot : 0 < pot)
    (hu : ∀ i, 0 ≤ u i ∧ u i < 1) :
    (trialValues u base nt pot).length = nt ∧
    (trialValues u base nt pot).Sorted (· ≤ ·) ∧
    (∀ v ∈ trialValues u base nt pot, 0 ≤ v ∧ v < pot) ∧
    candidateIdsAux cumsum n (trialValues u base nt pot) 0 =
      (trialValues u base nt pot).map
        (fun v => if leastIdxGE cumsum v ≠ cumsum.length then leastIdxGE cumsum v
                  else n - 1) ∧
    (∀ v ∈ trialValues u base nt pot,
      (∀ j, j < leastIdxGE cumsum v → cumsum.getD j 0 < v) ∧
      (leastIdxGE cumsum v < cumsum.length → v ≤ cumsum.getD (leastIdxGE cumsum v) 0)) := by
  refine ⟨trialValues_length u base nt pot, trialValues_sorted u base nt pot, ?_, ?_, ?_⟩
  · intro v hv
    rcases trialValues_mem u base nt pot v hv with ⟨i, _, rfl⟩
    constructor
    · exact mul_nonneg (le_of_lt hpot) (hu (base + i)).1
    · calc pot * u (base + i) < pot * 1 :=
            mul_lt_mul_of_pos_left (hu (base + i)).2 hpot
        _ = pot := mul_one pot
  · exact candidateIdsAux_eq_map cumsum n (trialValues u base nt pot) 0
      (trialValues_sorted u base nt pot) (fun v _ => Nat.zero_le _)
  · intro v _
    exact ⟨leastIdxGE_lt_of_before cumsum v, leastIdxGE_ge_at cumsum v⟩

/-- Witness for C2: K = 2 gives nTrials = ⌊2 + ln 2⌋ = 2; concrete prefix-sum
vector [1/2, 1], potential 1 and stream constantly 1/2. -/
theorem C2_witness :
    (1 ≤ 2 ∧ 2 = ⌊(2 : ℝ) + Real.log 2⌋₊ ∧ (0 : ℚ) < 1) ∧
    (trialValues (fun _ => 1/2) 0 2 1).length = 2 ∧
    candidateIdsAux [1/2, 1] 2 (trialValues (fun _ => 1/2) 0 2 1) 0 =
      (trialValues (fun _ => 1/2) 0 2 1).map
        (fun v => if leastIdxGE [1/2, 1] v ≠ ([1/2, 1] : List ℚ).length
                  then leastIdxGE [1/2, 1] v else 2 - 1) := by
  have hfloor : ⌊(2 : ℝ) + Real.log 2⌋₊ = 2 := by
    have h1 : Real.log 2 < 1 := lt_trans Real.log_two_lt_d9 (by norm_num)
    have h0 : 0 ≤ Real.log 2 := Real.log_nonneg (by norm_num)
    rw [Nat.floor_eq_iff (by linarith)]
    constructor <;> push_cast <;> linarith
  have h := C2_candidate_generation 2 2 (by norm_num) hfloor.symm
    [1/2, 1] 2 0 (fun _ => 1/2) 1 (by norm_num) (by norm_num)
    (fun i => ⟨by norm_num, by norm_num⟩)
  exact ⟨⟨by norm_num, hfloor.symm, by norm_num⟩, h.1, h.2.2.2.1⟩

/-- C3: in every seeding round, each candidate's updated potential is the sum
over all N frames of the minimum of the frame's current potential and its
distance to the candidate; the first candidate with the smallest updated
potential wins (strictly smaller than every earlier candidate's); and the
post-round state holds the winner's potential vector, its prefix sum, the
winner's total, and appends the winner's coordinates as center c. -/
theorem C3_candidate_selection (d : Metric) (data : List (List ℚ)) (u : Nat → ℚ)
    (nt : Nat) (cb : Option (Nat → Bool)) (st : SeedState)
    (hnt : 1 ≤ nt) (hlen : st.distances.length = data.length) :
    (∀ t, t < nt →
      (roundPots d data u nt st).getD t 0 =
        ∑ i ∈ Finset.range data.length,
          min (d (data.getD ((roundIds data u nt st).getD t 0) []) (data.getD i []))
            (st.distances.getD i 0)) ∧
    (roundBest d data u nt st < nt ∧
      (∀ j, j < nt →
        (roundPots d data u nt st).getD (roundBest d data u nt st) 0 ≤
          (roundPots d data u nt st).getD j 0) ∧
      (∀ j, j < roundBest d data u nt st →
        (roundPots d data u nt st).getD (roundBest d data u nt st) 0 <
          (roundPots d data u nt st).getD j 0)) ∧
    (seedRound d data u nt cb st).distances =
      updatedRow d data st.distances (roundBestId d data u nt st) ∧
    (seedRound d data u nt cb st).cumsum =
      prefixSum (updatedRow d data st.distances (roundBestId d data u nt st)) ∧
    (seedRound d data u nt cb st).pot =
      (roundPots d data u nt st).getD (roundBest d data u nt st) 0 ∧
    (seedRound d data u nt cb st).pot = (seedRound d data u nt cb st).distances.sum ∧
    seedCenters data (seedRound d data u nt cb st) =
      seedCenters data st ++ [data.getD (roundBestId d data u nt st) []] := by
  have hne : roundPots d data u nt st ≠ [] := by
    intro hc
    have := roundPots_length d data u nt st
    rw [hc] at this
    simp at this
    omega
  have hspec := argminIdx_spec (roundPots d data u nt st) hne
  rw [roundPots_length] at hspec
  refine ⟨?_, ⟨hspec.1, ?_, ?_⟩, rfl, rfl, rfl,
    seedRound_pot_eq_sum d data u nt cb st hnt, ?_⟩
  · intro t ht
    rw [roundPots_getD d data u nt st t ht]
    exact updatedRow_sum_range d data st.distances _ hlen
  · intro j hj
    exact hspec.2.1 j hj
  · intro j hj
    exact hspec.2.2 j hj
  · show ((seedRound d data u nt cb st).pickedIds).map _ = _
    rw [seedRound_pickedIds, List.map_append]
    rfl

/-- Witness for C3 on a concrete state (the post-first-center state of a
2-point data set). -/
theorem C3_witness :
    (1 ≤ 2 ∧
      (initState sqDist [[0], [1]] 0 none).distances.length =
        ([[0], [1]] : List (List ℚ)).length) ∧
    seedCenters [[0], [1]]
        (seedRound sqDist [[0], [1]] (fun _ => 1/2) 2 none
          (initState sqDist [[0], [1]] 0 none)) =
      seedCenters [[0], [1]] (initState sqDist [[0], [1]] 0 none) ++
        [([[0], [1]] : List (List ℚ)).getD
          (roundBestId sqDist [[0], [1]] (fun _ => 1/2) 2
            (initState sqDist [[0], [1]] 0 none)) []] := by
  have hlen : (initState sqDist [[0], [1]] 0 none).distances.length =
      ([[0], [1]] : List (List ℚ)).length := by
    simp [initState]
  exact ⟨⟨by norm_num, hlen⟩,
    (C3_candidate_selection sqDist [[0], [1]] (fun _ => 1/2) 2 none
      (initState sqDist [[0], [1]] 0 none) (by norm_num) hlen).2.2.2.2.2.2⟩

/-- C8 (amended): when K = N, the data rows are pairwise distinct, and every
uniform real draw lies strictly inside (0,1), `seed()` with the squared
Euclidean metric returns the N input rows each exactly once (a permutation of
the data), and the total potential after the last center is 0. -/
theorem C8_amended_permutation (data : List (List ℚ)) (dim k firstIx nt : Nat)
    (u : Nat → ℚ) (cb : Option (Nat → Bool))
    (hk : k = data.length) (hn : 1 ≤ data.length) (hfi : firstIx < data.length)
    (hnt : 1 ≤ nt) (hnodup : data.Nodup) (hrows : ∀ r ∈ data, r.length = dim)
    (hu : ∀ i, 0 < u i ∧ u i < 1) :
    (seedCenters data (runSeeding sqDist data k firstIx u nt cb)).Perm data ∧
    (runSeeding sqDist data k firstIx u nt cb).pot = 0 := by
  subst hk
  set st := runSeeding sqDist data data.length firstIx u nt cb with hst
  have hg0 := goodState_initState data dim firstIx cb hfi hnodup hrows
  have hinit1 : (initState sqDist data firstIx cb).pickedIds.length = 1 := rfl
  have hgfin : GoodState data st := by
    rw [hst, runSeeding]
    exact goodState_seedLoop data dim u nt cb hnt hnodup hrows hu (data.length - 1) _
      hg0 (by omega)
  obtain ⟨⟨hlen, hcs, hpot⟩, hnodupP, hmemP, hzero⟩ := hgfin
  have hlenP : st.pickedIds.length = data.length := by
    rw [hst, runSeeding, seedLoop_pickedIds_length, hinit1]
    omega
  have hfin : st.pickedIds.toFinset = Finset.range data.length := by
    refine Finset.eq_of_subset_of_card_le ?_ ?_
    · intro i hi
      exact Finset.mem_range.mpr (hmemP i (List.mem_toFinset.mp hi))
    · rw [Finset.card_range, List.toFinset_card_of_nodup hnodupP, hlenP]
  have hall : ∀ j, j < data.length → j ∈ st.pickedIds := by
    intro j hj
    have : j ∈ st.pickedIds.toFinset := by
      rw [hfin]
      exact Finset.mem_range.mpr hj
    exact List.mem_toFinset.mp this
  constructor
  · have hpermIds : st.pickedIds.Perm (List.range data.length) := by
      apply List.perm_of_nodup_nodup_toFinset_eq hnodupP (List.nodup_range data.length)
      rw [hfin, toFinset_range_eq]
    have hcenters : seedCenters data st = st.pickedIds.map (fun i => data.getD i []) := rfl
    rw [hcenters]
    have hm := hpermIds.map (fun i => data.getD i [])
    rw [map_getD_range data] at hm
    exact hm
  · rw [hpot]
    apply sum_eq_zero_of_getD
    intro j hj
    have hjn : j < data.length := by omega
    exact (hzero j hjn).1 (hall j hjn)

/-- C8 (counterexample to the claim as stated): for K = N = 2 on the distinct
rows [[0],[1]], the draw stream that is constantly 0 (a value
`uniform_real_distribution(0,1)` can produce) makes `seed()` return the row
[0] twice — not a permutation of the data — and leaves the total potential at
1 rather than 0. -/
theorem C8_counterexample_zero_draws :
    seedCenters [[0], [1]] (runSeeding sqDist [[0], [1]] 2 0 (fun _ => 0) 2 none) =
      [[0], [0]] ∧
    ¬ ((runSeeding sqDist [[0], [1]] 2 0 (fun _ => 0) 2 none).pot = 0) := by
  constructor <;>
    norm_num [runSeeding, seedLoop, seedRound, roundBestId, roundBest, roundPots,
      roundIds, roundTrials, initState, trialValues, candidateIdsAux,
      lowerBoundFrom, updatedRow, argminIdx, argminAux, prefixSum, prefixSumFrom, sqDist,
      leastIdxGE, seedCenters, List.insertionSort, List.orderedInsert, List.range_succ,
      List.findIdx, List.findIdx.go, min_def]

/-- Witness for C8's amended theorem at a concrete run (K = N = 2, distinct
rows, draws constantly 1/2). -/
theorem C8_amended_witness :
    (2 = ([[0], [2]] : List (List ℚ)).length ∧ ([[0], [2]] : List (List ℚ)).Nodup) ∧
    (seedCenters [[0], [2]]
      (runSeeding sqDist [[0], [2]] 2 0 (fun _ => 1/2) 2 none)).Perm [[0], [2]] ∧
    (runSeeding sqDist [[0], [2]] 2 0 (fun _ => 1/2) 2 none).pot = 0 := by
  have hnodup : ([[0], [2]] : List (List ℚ)).Nodup := by
    norm_num [List.nodup_cons]
  have h := C8_amended_permutation [[0], [2]] 1 2 0 2 (fun _ => 1/2) none rfl
    (by norm_num) (by norm_num) (by norm_num) hnodup
    (by
      intro r hr
      simp only [List.mem_cons, List.not_mem_nil, or_false, List.mem_singleton] at hr
      rcases hr with rfl | rfl <;> norm_num)
    (fun i => ⟨by norm_num, by norm_num⟩)
  exact ⟨⟨rfl, hnodup⟩, h.1, h.2⟩

/-- Witness for C1 at a concrete data set. -/
theorem C1_witness :
    (1 ≤ 2 ∧ 2 ≤ 2 ∧ 0 < 2) ∧
    (∃ st, initKmeansPlusPlus 2 [[0, 1], [2, 3]] 2 sqDist 1 0 (fun _ => 1/2) 2 none =
        Except.ok st ∧
      (seedCenters [[0, 1], [2, 3]] st).length = 2 ∧
      ∀ row ∈ seedCenters [[0, 1], [2, 3]] st, row ∈ [[0, 1], [2, 3]] ∧ row.length = 2) :=
  ⟨⟨by norm_num, by norm_num, by norm_num⟩,
   C1_centers_are_data_rows [[0, 1], [2, 3]] 2 2 1 0 2 sqDist (fun _ => 1/2) none
     (by norm_num) (by norm_num) (by norm_num)
     (by
       intro r hr
       simp only [List.mem_cons, List.not_mem_nil, or_false, List.mem_singleton] at hr
       rcases hr with rfl | rfl <;> norm_num)⟩

end KmeansModel
